import Mathlib

/-!
Verification development for the scientific-calculator engine in
`src/script.js`: the sanitizer, the expression evaluator, the session
state machine, and the bounded history ledger.  Each definition is a
shallow embedding of the corresponding JavaScript function; line numbers
in the comments refer to `src/script.js`.  JavaScript numbers are
modelled by real numbers extended with the IEEE special values
(`JSVal` below); the buffers are plain strings.
-/

namespace Calc

/-! ## Characters and the sanitizer (`evaluateExpression`, lines 181-198) -/

/-- Whitespace characters removed by the `replace(/\s+/g, "")` step (line 183).
We model the common members of the JavaScript `\s` class. -/
def isWsChar (c : Char) : Bool :=
  c = ' ' || c = '\t' || c = '\n' || c = '\r' || c = '\x0b' || c = '\x0c' || c = ' '

/-- Characters kept by the filter `replace(/[^0-9+\-*\/^().%A-Za-z]/g, "")`
(line 190): digits, the operator symbols, parentheses, dot, percent, and
ASCII letters. -/
def isAllowedChar (c : Char) : Bool :=
  c.isDigit || c.isAlpha ||
    c = '+' || c = '-' || c = '*' || c = '/' || c = '^' || c = '(' || c = ')' ||
    c = '.' || c = '%'

/-- Step 1 of sanitization: remove all whitespace (line 183). -/
def stripWsAux (l : List Char) : List Char :=
  l.filter (fun c => !isWsChar c)

/-- Step 2 of sanitization: drop every disallowed character (line 190). -/
def filterAux (l : List Char) : List Char :=
  l.filter isAllowedChar

/-- Step 3 of sanitization: rewrite each `^` to the JavaScript operator `**`
(line 195, `replace(/\^/g, "**")`). -/
def caretAux : List Char → List Char
  | [] => []
  | c :: cs => if c = '^' then '*' :: '*' :: caretAux cs else c :: caretAux cs

/-- One attempt of the percent regex `/(\d+(\.\d+)?)%/` at the head of the
list (line 198).  Returns the matched literal (without the `%`) and the
remainder after the `%`.  Mirrors the backtracking behaviour of the regex:
a greedy digit run, then an optional `.digits` fragment, then a literal `%`;
if the fractional branch fails the integer branch requires `%` immediately
after the digit run. -/
def tryMatch (l : List Char) : Option (List Char × List Char) :=
  if (l.takeWhile Char.isDigit).isEmpty then none else
  match l.dropWhile Char.isDigit with
  | [] => none
  | c1 :: r2 =>
    if c1 = '%' then some (l.takeWhile Char.isDigit, r2)
    else if c1 = '.' then
      if (r2.takeWhile Char.isDigit).isEmpty then none else
      match r2.dropWhile Char.isDigit with
      | [] => none
      | c3 :: r4 =>
        if c3 = '%' then
          some (l.takeWhile Char.isDigit ++ '.' :: r2.takeWhile Char.isDigit, r4)
        else none
    else none

/-- Step 4 of sanitization: the global replace
`replace(/(\d+(\.\d+)?)%/g, "($1/100)")` (line 198), scanning left to
right, non-overlapping, resuming right after each replacement.  The fuel
argument only serves structural termination; `percentRewrite` below always
supplies enough fuel, and exhausted fuel returns the input unchanged. -/
def percentAuxF : Nat → List Char → List Char
  | 0, l => l
  | _ + 1, [] => []
  | f + 1, c :: cs =>
    match tryMatch (c :: cs) with
    | some (lit, rest) =>
      '(' :: (lit ++ '/' :: '1' :: '0' :: '0' :: ')' :: percentAuxF f rest)
    | none => c :: percentAuxF f cs

/-- The percent-rewrite pass on a character list. -/
def percentRewrite (l : List Char) : List Char :=
  percentAuxF l.length l

/-- The whole sanitization pass of `evaluateExpression` (lines 183-198):
whitespace removal, disallowed-character filtering, `^` rewrite, percent
rewrite, in source order. -/
def sanitizeList (l : List Char) : List Char :=
  percentRewrite (caretAux (filterAux (stripWsAux l)))

/-- Sanitization on strings. -/
def sanitize (s : String) : String :=
  ⟨sanitizeList s.toList⟩

/-! ## Adjacent-pair invariants on character lists -/

/-- `chainB R l` holds when every pair of adjacent characters of `l`
satisfies `R`. -/
def chainB (R : Char → Char → Bool) : List Char → Bool
  | a :: b :: l => R a b && chainB R (b :: l)
  | _ => true

theorem chainB_nil (R : Char → Char → Bool) : chainB R [] = true := rfl

theorem chainB_single (R : Char → Char → Bool) (a : Char) : chainB R [a] = true := rfl

theorem chainB_cons_cons (R : Char → Char → Bool) (a b : Char) (l : List Char) :
    chainB R (a :: b :: l) = (R a b && chainB R (b :: l)) := rfl

theorem chainB_tail {R : Char → Char → Bool} {a : Char} {l : List Char}
    (h : chainB R (a :: l) = true) : chainB R l = true := by
  cases l with
  | nil => rfl
  | cons b r =>
    rw [chainB_cons_cons] at h
    exact (And.right (by simpa using h))

theorem chainB_cons_of {R : Char → Char → Bool} {a : Char} {l : List Char}
    (h : chainB R l = true) (ha : ∀ b, l.head? = some b → R a b = true) :
    chainB R (a :: l) = true := by
  cases l with
  | nil => rfl
  | cons b r =>
    rw [chainB_cons_cons]
    simp only [Bool.and_eq_true]
    exact ⟨ha b rfl, h⟩

theorem chainB_append {R : Char → Char → Bool} {xs ys : List Char}
    (hx : chainB R xs = true) (hy : chainB R ys = true)
    (hj : ∀ a b, xs.getLast? = some a → ys.head? = some b → R a b = true) :
    chainB R (xs ++ ys) = true := by
  induction xs with
  | nil => simpa using hy
  | cons a xs ih =>
    cases xs with
    | nil =>
      simp only [List.singleton_append]
      exact chainB_cons_of hy (fun b hb => hj a b rfl hb)
    | cons a2 xs2 =>
      rw [chainB_cons_cons] at hx
      simp only [Bool.and_eq_true] at hx
      obtain ⟨h1, h2⟩ := hx
      have := ih h2 (fun x y hx2 hy2 => by
        refine hj x y ?_ hy2
        rw [List.getLast?_cons_cons]
        exact hx2)
      rw [List.cons_append, List.cons_append, chainB_cons_cons]
      rw [List.cons_append] at this
      simp only [Bool.and_eq_true]
      exact ⟨h1, this⟩

theorem chainB_pair {R : Char → Char → Bool} {xs ys : List Char} {a b : Char}
    (h : chainB R (xs ++ a :: b :: ys) = true) : R a b = true := by
  induction xs with
  | nil =>
    rw [List.nil_append, chainB_cons_cons] at h
    exact (And.left (by simpa using h))
  | cons x xs ih =>
    rw [List.cons_append] at h
    exact ih (chainB_tail h)

/-- Sufficient condition for `chainB`: the relation holds with anything on the
left whenever the right element is in the list. -/
theorem chainB_of_mem {R : Char → Char → Bool} {l : List Char}
    (h : ∀ b ∈ l, ∀ a, R a b = true) : chainB R l = true := by
  induction l with
  | nil => rfl
  | cons a l ih =>
    refine chainB_cons_of (ih (fun b hb a2 => h b (List.mem_cons_of_mem _ hb) a2)) ?_
    intro b hb
    exact h b (List.mem_cons_of_mem _ (List.mem_of_mem_head? hb)) a

theorem chainB_append_left {R : Char → Char → Bool} {xs ys : List Char}
    (h : chainB R (xs ++ ys) = true) : chainB R xs = true := by
  induction xs with
  | nil => rfl
  | cons a xs ih =>
    cases xs with
    | nil => rfl
    | cons a2 xs2 =>
      rw [List.cons_append, List.cons_append, chainB_cons_cons] at h
      simp only [Bool.and_eq_true] at h
      obtain ⟨h1, h2⟩ := h
      rw [chainB_cons_cons]
      simp only [Bool.and_eq_true]
      rw [← List.cons_append] at h2
      exact ⟨h1, ih h2⟩

/-! ## Structure of a successful percent match -/

theorem tryMatch_some {l lit rest : List Char} (h : tryMatch l = some (lit, rest)) :
    l = lit ++ '%' :: rest ∧ lit ≠ [] ∧ (∀ c ∈ lit, c.isDigit = true ∨ c = '.') ∧
      ∃ lit0 d, lit = lit0 ++ [d] ∧ d.isDigit = true := by
  unfold tryMatch at h
  by_cases h1 : (l.takeWhile Char.isDigit).isEmpty
  · rw [if_pos h1] at h; simp at h
  · rw [if_neg h1] at h
    have hds : l.takeWhile Char.isDigit ≠ [] := fun hh => h1 (by simp [hh])
    have hdig : ∀ c ∈ l.takeWhile Char.isDigit, c.isDigit = true :=
      fun c hc => List.mem_takeWhile_imp hc
    have hsplit := List.takeWhile_append_dropWhile Char.isDigit l
    cases hr1 : l.dropWhile Char.isDigit with
    | nil => rw [hr1] at h; simp at h
    | cons c1 r2 =>
      rw [hr1] at h hsplit
      dsimp only at h
      by_cases hc1 : c1 = '%'
      · rw [if_pos hc1] at h
        simp only [Option.some.injEq, Prod.mk.injEq] at h
        obtain ⟨hlit, hrest⟩ := h
        subst hlit; subst hrest; subst hc1
        refine ⟨hsplit.symm, hds, fun c hc => Or.inl (hdig c hc),
          (l.takeWhile Char.isDigit).dropLast, (l.takeWhile Char.isDigit).getLast hds,
          (List.dropLast_append_getLast hds).symm, hdig _ (List.getLast_mem hds)⟩
      · rw [if_neg hc1] at h
        by_cases hc2 : c1 = '.'
        · rw [if_pos hc2] at h
          by_cases h3 : (r2.takeWhile Char.isDigit).isEmpty
          · rw [if_pos h3] at h; simp at h
          · rw [if_neg h3] at h
            have hfs : r2.takeWhile Char.isDigit ≠ [] := fun hh => h3 (by simp [hh])
            have hfdig : ∀ c ∈ r2.takeWhile Char.isDigit, c.isDigit = true :=
              fun c hc => List.mem_takeWhile_imp hc
            have hsplit2 := List.takeWhile_append_dropWhile Char.isDigit r2
            cases hr3 : r2.dropWhile Char.isDigit with
            | nil => rw [hr3] at h; simp at h
            | cons c3 r4 =>
              rw [hr3] at h hsplit2
              dsimp only at h
              by_cases hc3 : c3 = '%'
              · rw [if_pos hc3] at h
                simp only [Option.some.injEq, Prod.mk.injEq] at h
                obtain ⟨hlit, hrest⟩ := h
                subst hlit; subst hrest; subst hc2; subst hc3
                constructor
                · calc l = List.takeWhile Char.isDigit l ++ '.' :: r2 := hsplit.symm
                    _ = List.takeWhile Char.isDigit l ++
                        '.' :: (List.takeWhile Char.isDigit r2 ++ '%' :: r4) := by
                      conv_lhs => rw [← hsplit2]
                    _ = (List.takeWhile Char.isDigit l ++
                        '.' :: List.takeWhile Char.isDigit r2) ++ '%' :: r4 := by
                      simp [List.append_assoc]
                refine ⟨by simp, ?_, ?_⟩
                · intro c hc
                  rcases List.mem_append.mp hc with hc | hc
                  · exact Or.inl (hdig c hc)
                  · rcases List.mem_cons.mp hc with hc | hc
                    · exact Or.inr hc
                    · exact Or.inl (hfdig c hc)
                · refine ⟨l.takeWhile Char.isDigit ++ '.' :: (r2.takeWhile Char.isDigit).dropLast,
                    (r2.takeWhile Char.isDigit).getLast hfs, ?_,
                    hfdig _ (List.getLast_mem hfs)⟩
                  rw [List.append_assoc, List.cons_append, List.dropLast_append_getLast hfs]
              · rw [if_neg hc3] at h; simp at h
        · rw [if_neg hc2] at h; simp at h

/-- Every `%` in a character list is either at the front or preceded by a
non-digit: the adjacent-pair relation ruling out a digit immediately followed
by `%`. -/
def rdp (a b : Char) : Bool :=
  !(b = '%' && a.isDigit)

/-- No digit is immediately followed by `%` anywhere in the list. -/
def noDP (l : List Char) : Bool :=
  chainB rdp l

theorem tryMatch_none_of_noDP {l : List Char} (h : noDP l = true) :
    tryMatch l = none := by
  cases htm : tryMatch l with
  | none => rfl
  | some p =>
    obtain ⟨lit, rest⟩ := p
    obtain ⟨hl, -, -, lit0, d, hlast, hd⟩ := tryMatch_some htm
    rw [hlast, List.append_assoc, List.singleton_append] at hl
    rw [hl] at h
    have := @chainB_pair rdp lit0 rest d '%' h
    rw [rdp, hd] at this
    simp at this

theorem percentAuxF_eq_self {l : List Char} (f : Nat) (h : noDP l = true) :
    percentAuxF f l = l := by
  induction f generalizing l with
  | zero => rfl
  | succ f ih =>
    cases l with
    | nil => rfl
    | cons c cs =>
      rw [percentAuxF, tryMatch_none_of_noDP h]
      rw [ih (chainB_tail h)]

theorem rdp_of_ne {a b : Char} (hb : b ≠ '%') : rdp a b = true := by
  simp [rdp, hb]

theorem rdp_of_not_digit {a b : Char} (ha : a.isDigit = false) : rdp a b = true := by
  simp [rdp, ha]

theorem noDP_percentAuxF : ∀ (f : Nat) (l : List Char), l.length ≤ f →
    noDP (percentAuxF f l) = true := by
  intro f
  induction f with
  | zero =>
    intro l hl
    have hnil : l = [] := List.eq_nil_of_length_eq_zero (Nat.le_zero.mp hl)
    subst hnil; rfl
  | succ f ih =>
    intro l hl
    cases l with
    | nil => rfl
    | cons c cs =>
      cases htm : tryMatch (c :: cs) with
      | some p =>
        obtain ⟨lit, rest⟩ := p
        obtain ⟨hl2, hne, hmem, lit0, d, hlast, hd⟩ := tryMatch_some htm
        have hrest : rest.length ≤ f := by
          have hlen := congrArg List.length hl2
          have hne2 : lit.length ≠ 0 := fun hz => hne (List.eq_nil_of_length_eq_zero hz)
          simp only [List.length_cons, List.length_append] at hlen hl
          omega
        rw [percentAuxF, htm]
        dsimp only
        have hxs : ('(' :: (lit ++ ['/', '1', '0', '0', ')'])) ++ percentAuxF f rest
            = '(' :: (lit ++ '/' :: '1' :: '0' :: '0' :: ')' :: percentAuxF f rest) := by
          simp
        rw [noDP, ← hxs]
        refine chainB_append ?_ (ih rest hrest) ?_
        · apply chainB_of_mem
          intro b hb a
          apply rdp_of_ne
          rcases List.mem_cons.mp hb with rfl | hb
          · decide
          rcases List.mem_append.mp hb with hb | hb
          · rcases hmem b hb with hbd | rfl
            · intro hbe; subst hbe; exact absurd hbd (by decide)
            · decide
          · fin_cases hb <;> decide
        · intro a b hga hgb
          have hsplitxs : ('(' :: (lit ++ ['/', '1', '0', '0', ')']))
              = ('(' :: (lit ++ ['/', '1', '0', '0'])) ++ [')'] := by simp
          rw [hsplitxs, List.getLast?_concat] at hga
          cases Option.some.inj hga
          exact rdp_of_not_digit (by decide)
      | none =>
        rw [percentAuxF, htm]
        dsimp only
        have hcs : cs.length ≤ f := Nat.le_of_succ_le_succ (by simpa using hl)
        rw [noDP]
        refine chainB_cons_of (ih cs hcs) ?_
        intro b hbh
        cases hcd : c.isDigit with
        | false => exact rdp_of_not_digit hcd
        | true =>
          apply rdp_of_ne
          intro hbe; subst hbe
          cases cs with
          | nil =>
            cases f with
            | zero => simp [percentAuxF] at hbh
            | succ f2 => simp [percentAuxF] at hbh
          | cons c2 cs2 =>
            obtain ⟨f2, rfl⟩ : ∃ f2, f = f2 + 1 := by
              cases f with
              | zero => simp at hcs
              | succ f2 => exact ⟨f2, rfl⟩
            rw [percentAuxF] at hbh
            cases htm2 : tryMatch (c2 :: cs2) with
            | some p2 =>
              rw [htm2] at hbh
              obtain ⟨l2, r2⟩ := p2
              simp at hbh
            | none =>
              rw [htm2] at hbh
              simp at hbh
              subst hbh
              rw [tryMatch] at htm
              simp +decide [List.takeWhile_cons, List.dropWhile_cons, hcd] at htm

theorem mem_percentAuxF : ∀ (f : Nat) (l : List Char) (c : Char),
    c ∈ percentAuxF f l → c ∈ l ∨ c ∈ ['(', ')', '/', '1', '0'] := by
  intro f
  induction f with
  | zero => intro l c hc; exact Or.inl hc
  | succ f ih =>
    intro l c hc
    cases l with
    | nil => simp [percentAuxF] at hc
    | cons a cs =>
      cases htm : tryMatch (a :: cs) with
      | some p =>
        obtain ⟨lit, rest⟩ := p
        rw [percentAuxF, htm] at hc
        dsimp only at hc
        obtain ⟨hl2, -, -, -⟩ := tryMatch_some htm
        rcases List.mem_cons.mp hc with rfl | hc
        · exact Or.inr (by decide)
        rcases List.mem_append.mp hc with hc | hc
        · exact Or.inl (by rw [hl2]; exact List.mem_append_left _ hc)
        rcases List.mem_cons.mp hc with rfl | hc
        · exact Or.inr (by decide)
        rcases List.mem_cons.mp hc with rfl | hc
        · exact Or.inr (by decide)
        rcases List.mem_cons.mp hc with rfl | hc
        · exact Or.inr (by decide)
        rcases List.mem_cons.mp hc with rfl | hc
        · exact Or.inr (by decide)
        rcases List.mem_cons.mp hc with rfl | hc
        · exact Or.inr (by decide)
        rcases ih rest c hc with h | h
        · exact Or.inl (by
            rw [hl2]
            exact List.mem_append_right _ (List.mem_cons_of_mem _ h))
        · exact Or.inr h
      | none =>
        rw [percentAuxF, htm] at hc
        dsimp only at hc
        rcases List.mem_cons.mp hc with rfl | hc
        · exact Or.inl (List.mem_cons_self _ _)
        rcases ih cs c hc with h | h
        · exact Or.inl (List.mem_cons_of_mem _ h)
        · exact Or.inr h

theorem mem_caretAux {c : Char} : ∀ {l : List Char}, c ∈ caretAux l → c ∈ l ∨ c = '*' := by
  intro l
  induction l with
  | nil => intro h; simp [caretAux] at h
  | cons a cs ih =>
    intro h
    rw [caretAux] at h
    by_cases ha : a = '^'
    · rw [if_pos ha] at h
      rcases List.mem_cons.mp h with rfl | h
      · exact Or.inr rfl
      rcases List.mem_cons.mp h with rfl | h
      · exact Or.inr rfl
      rcases ih h with h2 | h2
      · exact Or.inl (List.mem_cons_of_mem _ h2)
      · exact Or.inr h2
    · rw [if_neg ha] at h
      rcases List.mem_cons.mp h with rfl | h
      · exact Or.inl (List.mem_cons_self _ _)
      rcases ih h with h2 | h2
      · exact Or.inl (List.mem_cons_of_mem _ h2)
      · exact Or.inr h2

theorem caretAux_no_caret : ∀ (l : List Char), '^' ∉ caretAux l := by
  intro l
  induction l with
  | nil => simp [caretAux]
  | cons a cs ih =>
    rw [caretAux]
    by_cases ha : a = '^'
    · rw [if_pos ha]
      intro h
      rcases List.mem_cons.mp h with h2 | h2
      · exact absurd h2 (by decide)
      rcases List.mem_cons.mp h2 with h3 | h3
      · exact absurd h3 (by decide)
      · exact ih h3
    · rw [if_neg ha]
      intro h
      rcases List.mem_cons.mp h with h2 | h2
      · exact ha h2.symm
      · exact ih h2

theorem caretAux_eq_self : ∀ {l : List Char}, '^' ∉ l → caretAux l = l := by
  intro l
  induction l with
  | nil => intro h; rfl
  | cons a cs ih =>
    intro h
    rw [caretAux, if_neg (fun ha => h (by rw [← ha]; exact List.mem_cons_self a cs))]
    rw [ih (fun hm => h (List.mem_cons_of_mem _ hm))]

theorem ws_not_allowed {c : Char} (h : isWsChar c = true) : isAllowedChar c = false := by
  rw [isWsChar] at h
  simp only [Bool.or_eq_true, decide_eq_true_eq] at h
  rcases h with ((((((h | h) | h) | h) | h) | h) | h) <;> subst h <;> decide

theorem allowed_not_ws {c : Char} (h : isAllowedChar c = true) : isWsChar c = false := by
  cases hw : isWsChar c
  · rfl
  · rw [ws_not_allowed hw] at h; cases h

theorem mem_sanitizeList {c : Char} {l : List Char} (h : c ∈ sanitizeList l) :
    isAllowedChar c = true := by
  rw [sanitizeList, percentRewrite] at h
  rcases mem_percentAuxF _ _ _ h with h2 | h2
  · rcases mem_caretAux h2 with h3 | h3
    · exact (List.mem_filter.mp h3).2
    · subst h3; decide
  · fin_cases h2 <;> decide

theorem sanitizeList_no_caret (l : List Char) : '^' ∉ sanitizeList l := by
  intro h
  rw [sanitizeList, percentRewrite] at h
  rcases mem_percentAuxF _ _ _ h with h2 | h2
  · exact caretAux_no_caret _ h2
  · exact absurd h2 (by decide)

theorem noDP_sanitizeList (l : List Char) : noDP (sanitizeList l) = true := by
  rw [sanitizeList, percentRewrite]
  exact noDP_percentAuxF _ _ (Nat.le_refl _)

/-- C7: sanitization — whitespace removal, disallowed-character filtering, the
caret rewrite and the percent rewrite, in the order of
`evaluateExpression` lines 183-198 — is idempotent: running the pass on an
already-sanitized string returns that string unchanged. -/
theorem C7_sanitize_idempotent (s : String) : sanitize (sanitize s) = sanitize s := by
  have key : sanitizeList (sanitizeList s.toList) = sanitizeList s.toList := by
    have hall : ∀ c ∈ sanitizeList s.toList, isAllowedChar c = true :=
      fun c hc => mem_sanitizeList hc
    have h1 : stripWsAux (sanitizeList s.toList) = sanitizeList s.toList := by
      rw [stripWsAux]
      refine List.filter_eq_self.mpr ?_
      intro a ha
      rw [allowed_not_ws (hall a ha)]
      rfl
    have h2 : filterAux (sanitizeList s.toList) = sanitizeList s.toList :=
      List.filter_eq_self.mpr hall
    have h3 : caretAux (sanitizeList s.toList) = sanitizeList s.toList :=
      caretAux_eq_self (sanitizeList_no_caret _)
    have h4 : percentRewrite (sanitizeList s.toList) = sanitizeList s.toList := by
      rw [percentRewrite]
      exact percentAuxF_eq_self _ (noDP_sanitizeList _)
    show percentRewrite (caretAux (filterAux (stripWsAux (sanitizeList s.toList)))) = _
    rw [h1, h2, h3, h4]
  show (⟨sanitizeList (sanitize s).toList⟩ : String) = ⟨sanitizeList s.toList⟩
  have htl : (sanitize s).toList = sanitizeList s.toList := rfl
  rw [htl, key]

/-! ## JavaScript numbers

The evaluator built by `new Function` (lines 209-245) computes with IEEE
doubles.  We idealize a double as a real number together with the special
values `Infinity`, `-Infinity` and `NaN`; `nonNum` stands for any
non-number JavaScript value flowing through the expression (the value of
an unresolved or non-numeric binding, `undefined` for a missing call
argument, or a thrown error), all of which the source's
`typeof result !== "number"` / `catch` paths (lines 246-258) collapse into
the same observable `"Error"` outcome.  Signed zero is not modelled (the
zero of `ℝ` is unsigned; the one consequence, `1 / -0 = -Infinity`, is not
reachable in any claim). -/
inductive JSVal
  | num (x : ℝ)
  | posInf
  | negInf
  | nan
  | nonNum

/-- Angle mode of the session: `"DEG"` or `"RAD"` (line 36). -/
inductive AngleMode
  | deg
  | rad
deriving DecidableEq

/-- Degrees-to-radians conversion (lines 89-91): `(x * Math.PI) / 180`. -/
noncomputable def degToRad (x : ℝ) : ℝ :=
  x * Real.pi / 180

/-- JavaScript binary `+` restricted to numeric operands. -/
noncomputable def jsAdd : JSVal → JSVal → JSVal
  | .num x, .num y => .num (x + y)
  | .num _, .posInf => .posInf
  | .posInf, .num _ => .posInf
  | .posInf, .posInf => .posInf
  | .num _, .negInf => .negInf
  | .negInf, .num _ => .negInf
  | .negInf, .negInf => .negInf
  | _, _ => .nan

/-- JavaScript binary `-`. -/
noncomputable def jsSub : JSVal → JSVal → JSVal
  | .num x, .num y => .num (x - y)
  | .num _, .posInf => .negInf
  | .posInf, .num _ => .posInf
  | .num _, .negInf => .posInf
  | .negInf, .num _ => .negInf
  | .posInf, .negInf => .posInf
  | .negInf, .posInf => .negInf
  | _, _ => .nan

/-- JavaScript binary `*`. -/
noncomputable def jsMul : JSVal → JSVal → JSVal
  | .num x, .num y => .num (x * y)
  | .num x, .posInf => if 0 < x then .posInf else if x < 0 then .negInf else .nan
  | .posInf, .num y => if 0 < y then .posInf else if y < 0 then .negInf else .nan
  | .num x, .negInf => if 0 < x then .negInf else if x < 0 then .posInf else .nan
  | .negInf, .num y => if 0 < y then .negInf else if y < 0 then .posInf else .nan
  | .posInf, .posInf => .posInf
  | .posInf, .negInf => .negInf
  | .negInf, .posInf => .negInf
  | .negInf, .negInf => .posInf
  | _, _ => .nan

/-- JavaScript binary `/`: a nonzero number divided by zero gives a signed
infinity, `0/0` gives `NaN`. -/
noncomputable def jsDiv : JSVal → JSVal → JSVal
  | .num x, .num y =>
    if y = 0 then (if 0 < x then .posInf else if x < 0 then .negInf else .nan)
    else .num (x / y)
  | .num _, .posInf => .num 0
  | .num _, .negInf => .num 0
  | .posInf, .num y => if y < 0 then .negInf else .posInf
  | .negInf, .num y => if y < 0 then .posInf else .negInf
  | _, _ => .nan

/-- Truncation toward zero, as used by the JavaScript `%` operator. -/
noncomputable def jsTrunc (r : ℝ) : ℤ :=
  if 0 ≤ r then ⌊r⌋ else ⌈r⌉

/-- JavaScript binary `%` (remainder): sign of the dividend,
`x % 0 = NaN`, `x % ±Infinity = x`. -/
noncomputable def jsMod : JSVal → JSVal → JSVal
  | .num x, .num y => if y = 0 then .nan else .num (x - y * jsTrunc (x / y))
  | .num x, .posInf => .num x
  | .num x, .negInf => .num x
  | _, _ => .nan

/-- JavaScript unary `-`. -/
noncomputable def jsNeg : JSVal → JSVal
  | .num x => .num (-x)
  | .posInf => .negInf
  | .negInf => .posInf
  | _ => .nan

/-- JavaScript numeric coercion: unary `+` and the global `Number`
conversion applied to an already-evaluated operand.  Non-number operands
coerce to `NaN` (faithful for `undefined`; objects and functions also end
in the error path). -/
noncomputable def jsToNum : JSVal → JSVal
  | .num x => .num x
  | .posInf => .posInf
  | .negInf => .negInf
  | _ => .nan

open Classical in
/-- JavaScript `**`.  `x ** 0 = 1` for every `x`; a negative base demands an
integer exponent; `0` to a negative power is `Infinity`.  The sign of
`(-Infinity) ** oddInteger` is not modelled (no claim reaches it). -/
noncomputable def jsPow : JSVal → JSVal → JSVal
  | .num x, .num y =>
    if y = 0 then .num 1
    else if hy : ∃ n : ℤ, (n : ℝ) = y then
      (if x = 0 ∧ Classical.choose hy < 0 then .posInf else .num (x ^ Classical.choose hy))
    else if x < 0 then .nan
    else if x = 0 then (if 0 < y then .num 0 else .posInf)
    else .num (Real.rpow x y)
  | .num x, .posInf =>
    if x = 1 ∨ x = -1 then .nan else if -1 < x ∧ x < 1 then .num 0 else .posInf
  | .num x, .negInf =>
    if x = 1 ∨ x = -1 then .nan else if -1 < x ∧ x < 1 then .posInf else .num 0
  | .posInf, .num y => if y = 0 then .num 1 else if 0 < y then .posInf else .num 0
  | .negInf, .num y => if y = 0 then .num 1 else if 0 < y then .posInf else .num 0
  | .nan, .num y => if y = 0 then .num 1 else .nan
  | .nonNum, .num y => if y = 0 then .num 1 else .nan
  | _, _ => .nan

/-! ## The fixed bindings passed to the compiled function (lines 209-245) -/

/-- A resolvable name is either a plain value or a one-argument function. -/
inductive JSBinding
  | val (v : JSVal)
  | fn (f : JSVal → JSVal)

/-- The `sin` argument (line 224): degree conversion before `Math.sin` when
the session is in DEG mode. -/
noncomputable def sinImpl (mode : AngleMode) : JSVal → JSVal
  | .num x => .num (Real.sin (if mode = .deg then degToRad x else x))
  | _ => .nan

/-- The `cos` argument (line 225). -/
noncomputable def cosImpl (mode : AngleMode) : JSVal → JSVal
  | .num x => .num (Real.cos (if mode = .deg then degToRad x else x))
  | _ => .nan

/-- The `tan` argument (line 226). -/
noncomputable def tanImpl (mode : AngleMode) : JSVal → JSVal
  | .num x => .num (Real.tan (if mode = .deg then degToRad x else x))
  | _ => .nan

/-- The `log` argument (lines 228-229): base-10 logarithm. -/
noncomputable def logImpl : JSVal → JSVal
  | .num x => if 0 < x then .num (Real.logb 10 x) else if x = 0 then .negInf else .nan
  | .posInf => .posInf
  | _ => .nan

/-- The `ln` argument (line 230): natural logarithm. -/
noncomputable def lnImpl : JSVal → JSVal
  | .num x => if 0 < x then .num (Real.log x) else if x = 0 then .negInf else .nan
  | .posInf => .posInf
  | _ => .nan

/-- The `sqrt` argument (line 231). -/
noncomputable def sqrtImpl : JSVal → JSVal
  | .num x => if 0 ≤ x then .num (Real.sqrt x) else .nan
  | .posInf => .posInf
  | _ => .nan

/-- Identifier resolution inside the compiled function body.  The nine
parameters of the `new Function` call (lines 209-219) shadow everything;
any other identifier is looked up in the enclosing *global* scope, because
a function created by the `Function` constructor closes over the global
environment.  We model the globals the claims exercise (`Number`, `NaN`,
`Infinity`, `undefined`); every remaining name is mapped to
`.val .nonNum`, standing for a thrown `ReferenceError` or an unmodelled
global object — in either case the caller observes the single `"Error"`
outcome.  `Ans` is `lastResult ?? 0` (line 233). -/
noncomputable def resolveIdent (mode : AngleMode) (ans : ℝ) : String → JSBinding
  | "sin" => .fn (sinImpl mode)
  | "cos" => .fn (cosImpl mode)
  | "tan" => .fn (tanImpl mode)
  | "log" => .fn logImpl
  | "ln" => .fn lnImpl
  | "sqrt" => .fn sqrtImpl
  | "PI" => .val (.num Real.pi)
  | "E" => .val (.num (Real.exp 1))
  | "Ans" => .val (.num ans)
  | "Number" => .fn jsToNum
  | "NaN" => .val .nan
  | "Infinity" => .val .posInf
  | "undefined" => .val .nonNum
  | _ => .val .nonNum

/-! ## Lexing and parsing the sanitized expression

The sanitized string is handed to `new Function` (line 209) and evaluated
as a JavaScript expression.  After sanitization it can only contain
digits, ASCII letters, `+ - * / % ( ) .` and the two-character operator
`**`, so the reachable fragment of the JavaScript grammar is: numeric
literals, identifiers, one-argument (or empty) calls of identifiers,
parentheses, unary `+ -`, and the binary operators `+ - * / % **` with
JavaScript precedence and associativity, including the restriction that a
unary expression cannot be the left operand of `**`.  Inputs outside this
fragment (stray dots, member accesses, adjacent literals) are mapped to a
parse failure; in the source every such input also ends in the single
`"Error"` outcome, via either a `SyntaxError` or a non-number result. -/

/-- Tokens of the sanitized expression language. -/
inductive Tok
  | num (q : ℚ)
  | ident (s : String)
  | plus
  | minus
  | star
  | slash
  | pct
  | starstar
  | lp
  | rp
  | dotTok
deriving DecidableEq

/-- Value of a digit run, most significant first. -/
def digitsVal (ds : List Char) : Nat :=
  ds.foldl (fun a c => 10 * a + (c.toNat - '0'.toNat)) 0

/-- Longest-match tokenizer.  Numeric literals are `digits`, `digits.digits`,
`digits.` or `.digits`; letter runs are identifiers; `**` lexes as one token
(maximal munch).  The fuel only serves structural termination and always
suffices when instantiated with the input length. -/
def tokenize : Nat → List Char → Option (List Tok)
  | 0, _ => none
  | _ + 1, [] => some []
  | f + 1, c :: cs =>
    if c.isDigit then
      match ((c :: cs).dropWhile Char.isDigit : List Char) with
      | '.' :: r2 =>
        (tokenize f (r2.dropWhile Char.isDigit)).map
          (Tok.num ((digitsVal ((c :: cs).takeWhile Char.isDigit) : ℚ) +
            (digitsVal (r2.takeWhile Char.isDigit) : ℚ) /
              (10 : ℚ) ^ (r2.takeWhile Char.isDigit).length) :: ·)
      | r1 =>
        (tokenize f r1).map (Tok.num (digitsVal ((c :: cs).takeWhile Char.isDigit) : ℚ) :: ·)
    else if c.isAlpha then
      (tokenize f ((c :: cs).dropWhile Char.isAlpha)).map
        (Tok.ident ⟨(c :: cs).takeWhile Char.isAlpha⟩ :: ·)
    else if c = '.' then
      match cs with
      | d :: _ =>
        if d.isDigit then
          (tokenize f (cs.dropWhile Char.isDigit)).map
            (Tok.num ((digitsVal (cs.takeWhile Char.isDigit) : ℚ) /
              (10 : ℚ) ^ (cs.takeWhile Char.isDigit).length) :: ·)
        else (tokenize f cs).map (Tok.dotTok :: ·)
      | [] => (tokenize f cs).map (Tok.dotTok :: ·)
    else if c = '*' then
      match cs with
      | '*' :: cs2 => (tokenize f cs2).map (Tok.starstar :: ·)
      | _ => (tokenize f cs).map (Tok.star :: ·)
    else if c = '+' then (tokenize f cs).map (Tok.plus :: ·)
    else if c = '-' then (tokenize f cs).map (Tok.minus :: ·)
    else if c = '/' then (tokenize f cs).map (Tok.slash :: ·)
    else if c = '%' then (tokenize f cs).map (Tok.pct :: ·)
    else if c = '(' then (tokenize f cs).map (Tok.lp :: ·)
    else if c = ')' then (tokenize f cs).map (Tok.rp :: ·)
    else none

/-- Abstract syntax of the reachable expression fragment. -/
inductive Expr
  | lit (q : ℚ)
  | var (n : String)
  | call0 (n : String)
  | call1 (n : String) (a : Expr)
  | neg (e : Expr)
  | pos (e : Expr)
  | add (a b : Expr)
  | sub (a b : Expr)
  | mul (a b : Expr)
  | div (a b : Expr)
  | mod (a b : Expr)
  | pow (a b : Expr)
deriving DecidableEq

/-- Nonterminal tags of the recursive-descent parser: additive expression,
additive loop, multiplicative expression, multiplicative loop,
exponentiation expression, unary expression, primary. -/
inductive PK
  | addE
  | addL (acc : Expr)
  | mulE
  | mulL (acc : Expr)
  | expoE
  | unaryE
  | primE

/-- Recursive-descent parser over the token list, with JavaScript precedence:
`+ -` < `* / %` < `**` (right associative, with a unary left operand
rejected as in JavaScript) < unary `+ -` < primaries (literals,
identifiers, calls, parentheses).  Structural fuel, always sufficient at
the call site in `parseJS`. -/
def parseGo : Nat → PK → List Tok → Option (Expr × List Tok)
  | 0, _, _ => none
  | f + 1, PK.addE, ts =>
    match parseGo f PK.mulE ts with
    | none => none
    | some (e, r) => parseGo f (PK.addL e) r
  | f + 1, PK.addL acc, Tok.plus :: r =>
    match parseGo f PK.mulE r with
    | none => none
    | some (e, r2) => parseGo f (PK.addL (Expr.add acc e)) r2
  | f + 1, PK.addL acc, Tok.minus :: r =>
    match parseGo f PK.mulE r with
    | none => none
    | some (e, r2) => parseGo f (PK.addL (Expr.sub acc e)) r2
  | _ + 1, PK.addL acc, ts => some (acc, ts)
  | f + 1, PK.mulE, ts =>
    match parseGo f PK.expoE ts with
    | none => none
    | some (e, r) => parseGo f (PK.mulL e) r
  | f + 1, PK.mulL acc, Tok.star :: r =>
    match parseGo f PK.expoE r with
    | none => none
    | some (e, r2) => parseGo f (PK.mulL (Expr.mul acc e)) r2
  | f + 1, PK.mulL acc, Tok.slash :: r =>
    match parseGo f PK.expoE r with
    | none => none
    | some (e, r2) => parseGo f (PK.mulL (Expr.div acc e)) r2
  | f + 1, PK.mulL acc, Tok.pct :: r =>
    match parseGo f PK.expoE r with
    | none => none
    | some (e, r2) => parseGo f (PK.mulL (Expr.mod acc e)) r2
  | _ + 1, PK.mulL acc, ts => some (acc, ts)
  | f + 1, PK.expoE, ts =>
    match ts with
    | Tok.minus :: _ =>
      match parseGo f PK.unaryE ts with
      | none => none
      | some (_, Tok.starstar :: _) => none
      | some (e, r) => some (e, r)
    | Tok.plus :: _ =>
      match parseGo f PK.unaryE ts with
      | none => none
      | some (_, Tok.starstar :: _) => none
      | some (e, r) => some (e, r)
    | _ =>
      match parseGo f PK.primE ts with
      | none => none
      | some (b, Tok.starstar :: r2) =>
        match parseGo f PK.expoE r2 with
        | none => none
        | some (e2, r3) => some (Expr.pow b e2, r3)
      | some (b, r) => some (b, r)
  | f + 1, PK.unaryE, Tok.minus :: r =>
    match parseGo f PK.unaryE r with
    | none => none
    | some (e, r2) => some (Expr.neg e, r2)
  | f + 1, PK.unaryE, Tok.plus :: r =>
    match parseGo f PK.unaryE r with
    | none => none
    | some (e, r2) => some (Expr.pos e, r2)
  | f + 1, PK.unaryE, ts => parseGo f PK.primE ts
  | _ + 1, PK.primE, Tok.num q :: r => some (Expr.lit q, r)
  | _ + 1, PK.primE, Tok.ident n :: Tok.lp :: Tok.rp :: r => some (Expr.call0 n, r)
  | f + 1, PK.primE, Tok.ident n :: Tok.lp :: r =>
    match parseGo f PK.addE r with
    | some (a, Tok.rp :: r2) => some (Expr.call1 n a, r2)
    | _ => none
  | _ + 1, PK.primE, Tok.ident n :: r => some (Expr.var n, r)
  | f + 1, PK.primE, Tok.lp :: r =>
    match parseGo f PK.addE r with
    | some (a, Tok.rp :: r2) => some (a, r2)
    | _ => none
  | _ + 1, PK.primE, _ => none

/-- Tokenize and parse a full sanitized character list; the whole token list
must be consumed, as the compiled body is `return (expr);`. -/
def parseJS (l : List Char) : Option Expr :=
  match tokenize (l.length + 1) l with
  | none => none
  | some ts =>
    match parseGo (8 * ts.length + 8) PK.addE ts with
    | some (e, []) => some e
    | _ => none

/-! ## Evaluation -/

/-- Evaluation of the parsed expression under the fixed bindings.
Referencing a function-valued binding as a plain variable produces a
non-number; calling a non-function throws, which the `catch` turns into
the error outcome — both are `nonNum` here.  A call with an empty argument
list passes `undefined`. -/
noncomputable def evalAST (mode : AngleMode) (ans : ℝ) : Expr → JSVal
  | .lit q => .num (q : ℝ)
  | .var n =>
    match resolveIdent mode ans n with
    | .val v => v
    | .fn _ => .nonNum
  | .call0 n =>
    match resolveIdent mode ans n with
    | .fn f => f .nonNum
    | .val _ => .nonNum
  | .call1 n a =>
    match resolveIdent mode ans n with
    | .fn f => f (evalAST mode ans a)
    | .val _ => .nonNum
  | .neg e => jsNeg (evalAST mode ans e)
  | .pos e => jsToNum (evalAST mode ans e)
  | .add a b => jsAdd (evalAST mode ans a) (evalAST mode ans b)
  | .sub a b => jsSub (evalAST mode ans a) (evalAST mode ans b)
  | .mul a b => jsMul (evalAST mode ans a) (evalAST mode ans b)
  | .div a b => jsDiv (evalAST mode ans a) (evalAST mode ans b)
  | .mod a b => jsMod (evalAST mode ans a) (evalAST mode ans b)
  | .pow a b => jsPow (evalAST mode ans a) (evalAST mode ans b)

/-- Rounding to 10 decimal places: `Number(result.toFixed(10))` (line 254).
`toFixed` picks the integer `n` minimizing `|n / 10^10 - x|`, the larger
`n` on ties, which is `⌊x * 10^10 + 1/2⌋`. -/
noncomputable def round10 (x : ℝ) : ℝ :=
  (⌊x * 10 ^ 10 + 1 / 2⌋ : ℤ) / 10 ^ 10

/-- Outcome of `evaluateExpression` (lines 181-259): the empty outcome `""`,
the `"Error"` signal, or a finite rounded number. -/
inductive EvalOutcome
  | empty
  | error
  | value (r : ℝ)

/-- The computable front half of `evaluateExpression`: whitespace removal
(line 183) with the first empty check (line 185), character filtering
(line 190) with the second empty check (line 192), caret and percent
rewrites (lines 195-198), then tokenization and parsing.  `none` is the
empty outcome; `some none` is a parse failure. -/
def preprocess (raw : String) : Option (Option Expr) :=
  if (stripWsAux raw.toList).isEmpty then none else
  if (filterAux (stripWsAux raw.toList)).isEmpty then none else
  some (parseJS (percentRewrite (caretAux (filterAux (stripWsAux raw.toList)))))

/-- The whole of `evaluateExpression` (lines 181-259): sanitize, compile,
evaluate under the fixed bindings, validate the result.  A parse failure
(the `catch`, line 246) and a non-finite or non-number result (line 252)
are both the same `error` outcome; a finite numeric result is rounded to
10 decimals (line 254). -/
noncomputable def evaluateExpression (raw : String) (mode : AngleMode) (ans : ℝ) :
    EvalOutcome :=
  match preprocess raw with
  | none => .empty
  | some none => .error
  | some (some e) =>
    match evalAST mode ans e with
    | .num r => .value (round10 r)
    | _ => .error

/-! ## Session state (lines 32-37) and its transitions -/

/-- JavaScript `String.prototype.trim`: drop whitespace from both ends. -/
def jsTrim (s : String) : String :=
  ⟨((s.toList.dropWhile isWsChar).reverse.dropWhile isWsChar).reverse⟩

/-- JavaScript `String.prototype.includes`: substring containment.  Note
`includes` of the empty string is `true`, as in JavaScript. -/
def strIncludes (hay needle : String) : Bool :=
  hay.toList.tails.any (fun t => needle.toList.isPrefixOf t)

/-- The operator alphabet used by the append guard (line 71). -/
def opsStr : String :=
  "+-*/^"

/-- The last character of the buffer as a string, `expression.slice(-1)`
(line 72): empty string on an empty buffer. -/
def lastCharStr (s : String) : String :=
  ⟨(s.toList.getLast?).toList⟩

/-- `appendToExpression` (lines 67-84): if the token is a binary operator and
the buffer is empty or already ends in a binary operator, the trailing
character is replaced (`expression.slice(0, -1) + token`); otherwise the
token is concatenated. -/
def appendToExpression (expr token : String) : String :=
  if strIncludes opsStr token && (expr = "" || strIncludes opsStr (lastCharStr expr)) then
    (⟨expr.toList.dropLast⟩ : String) ++ token
  else
    expr ++ token

/-- `deleteLastChar` (lines 58-61): `expression.slice(0, -1)`. -/
def deleteLastChar (expr : String) : String :=
  ⟨expr.toList.dropLast⟩

/-- A history entry `{ expr, res }` (line 115). -/
abbrev HistEntry := String × ℝ

/-- `addToHistory` (lines 105-123): ignore the push when the result is not a
finite number (`typeof res !== "number" || !Number.isFinite(res)` — the
non-`num` cases of `JSVal`) or the expression trims to empty; otherwise
`unshift` at the front and `pop` the last entry once the length exceeds
20. -/
def addToHistory (hist : List HistEntry) (expr : String) : JSVal → List HistEntry
  | .num res =>
    if jsTrim expr = "" then hist
    else
      if 20 < ((expr, res) :: hist).length then ((expr, res) :: hist).dropLast
      else (expr, res) :: hist
  | _ => hist

/-- The mutable session state (lines 34-37): the expression buffer, the last
result (`null` before any successful commit), the angle mode and the
history array. -/
structure CalcState where
  expression : String
  lastResult : Option ℝ
  angleMode : AngleMode
  history : List HistEntry

/-- The initial state (lines 34-37): empty buffer, no last result, DEG mode,
empty history. -/
def initState : CalcState :=
  { expression := "", lastResult := none, angleMode := AngleMode.deg, history := [] }

/-- The main display content maintained by `syncDisplay` (lines 46-49):
`"0"` when the buffer is empty, the buffer otherwise.  Every state
mutation in the source re-runs `syncDisplay`, so the displayed value is
this function of the buffer. -/
def displayMainValue (s : CalcState) : String :=
  if s.expression = "" then "0" else s.expression

/-- The string handed to the evaluator on `equals` (lines 321-322): the
buffer, or the displayed text when the buffer is empty. -/
def exprToEval (s : CalcState) : String :=
  if s.expression = "" then displayMainValue s else s.expression

/-- The `Ans` value passed to the compiled function: `lastResult ?? 0`
(line 233). -/
def ansValue (s : CalcState) : ℝ :=
  s.lastResult.getD 0

/-- The `equals` branch of `handleAction` (lines 320-336): evaluate; on
`"Error"` or the empty outcome keep the state unchanged (only the display
is re-rendered); on success push to history, set `lastResult`, and replace
the buffer by the string form of the result.  `fmt` is the JavaScript
number-to-string conversion `String(result)`, kept abstract because it
formats IEEE doubles. -/
noncomputable def equalsStep (fmt : ℝ → String) (s : CalcState) : CalcState :=
  match evaluateExpression (exprToEval s) s.angleMode (ansValue s) with
  | .value r =>
    { s with
      history := addToHistory s.history (exprToEval s) (.num r)
      lastResult := some r
      expression := fmt r }
  | _ => s

/-- The function-button names reachable from the UI (`handleFunction`,
lines 265-305, and the keyboard shortcut for `ans`). -/
inductive FnName
  | sin
  | cos
  | tan
  | log
  | ln
  | sqrt
  | square
  | pi
  | e
  | ans

/-- `handleFunction` (lines 265-305): trig/log/sqrt append `name + "("`;
`square` wraps the nonempty buffer as `(expr)^2`; `pi`, `e` and `ans`
go through `appendToExpression`; `ans` only when a last result exists. -/
def handleFunction (n : FnName) (s : CalcState) : CalcState :=
  match n with
  | .sin => { s with expression := s.expression ++ "sin(" }
  | .cos => { s with expression := s.expression ++ "cos(" }
  | .tan => { s with expression := s.expression ++ "tan(" }
  | .log => { s with expression := s.expression ++ "log(" }
  | .ln => { s with expression := s.expression ++ "ln(" }
  | .sqrt => { s with expression := s.expression ++ "sqrt(" }
  | .square =>
    if s.expression = "" then s
    else { s with expression := "(" ++ s.expression ++ ")^2" }
  | .pi => { s with expression := appendToExpression s.expression ("PI") }
  | .e => { s with expression := appendToExpression s.expression ("E") }
  | .ans =>
    match s.lastResult with
    | some _ => { s with expression := appendToExpression s.expression ("Ans") }
    | none => s

/-- The single-character tokens reachable from the keyboard handler
(lines 422-437): digits, the five binary operators and the parentheses. -/
inductive UIToken
  | digit (d : Fin 10)
  | plus
  | minus
  | times
  | divTok
  | caret
  | lparen
  | rparen

/-- The character of a `UIToken`. -/
def uiTokenChar : UIToken → Char
  | .digit d => Char.ofNat (48 + d.val)
  | .plus => '+'
  | .minus => '-'
  | .times => '*'
  | .divTok => '/'
  | .caret => '^'
  | .lparen => '('
  | .rparen => ')'

/-- Characters the `dot` action splits the buffer on (line 345):
the regex class `[+\-*/^()]`. -/
def isSplitChar (c : Char) : Bool :=
  c = '+' || c = '-' || c = '*' || c = '/' || c = '^' || c = '(' || c = ')'

/-- One user-visible session operation: a keypad/keyboard token press, a
function button, one of the `handleAction` actions (lines 310-363), a
history-entry click (lines 147-150), the clear-history button (line 162),
or the DEG/RAD toggle (lines 406-409). -/
inductive CalcOp
  | press (t : UIToken)
  | func (n : FnName)
  | clear
  | delete
  | equals
  | percent
  | dot
  | doubleZero
  | historySelect (i : Nat)
  | historyClear
  | toggleAngle

/-- The session-state transition for one operation, mirroring
`handleKeypadClick` / `handleAction` / `handleFunction` and the history
and angle-toggle listeners.  `fmt` is `String(number)` as in
`equalsStep`. -/
noncomputable def step (fmt : ℝ → String) (op : CalcOp) (s : CalcState) : CalcState :=
  match op with
  | .press t => { s with expression := appendToExpression s.expression ⟨[uiTokenChar t]⟩ }
  | .func n => handleFunction n s
  | .clear => { s with expression := "" }
  | .delete => { s with expression := deleteLastChar s.expression }
  | .equals => equalsStep fmt s
  | .percent => { s with expression := appendToExpression s.expression ("%") }
  | .dot =>
    if ((s.expression.toList.splitOnP isSplitChar).getLastD []).contains '.' then s
    else { s with expression := appendToExpression s.expression (".") }
  | .doubleZero =>
    if s.expression = "" then { s with expression := appendToExpression s.expression ("0") }
    else { s with expression := appendToExpression s.expression ("00") }
  | .historySelect i =>
    match s.history.get? i with
    | some en => { s with expression := fmt en.2 }
    | none => s
  | .historyClear => { s with history := [] }
  | .toggleAngle =>
    { s with angleMode := match s.angleMode with | .deg => .rad | .rad => .deg }

/-- Run a sequence of operations from the initial state. -/
noncomputable def runOps (fmt : ℝ → String) (ops : List CalcOp) : CalcState :=
  ops.foldl (fun s op => step fmt op s) initState

/-- The five binary-operator characters of the append guard. -/
def isOpChar (c : Char) : Bool :=
  c = '+' || c = '-' || c = '*' || c = '/' || c = '^'

/-- Adjacent-pair relation: not both characters are binary operators. -/
def rop (a b : Char) : Bool :=
  !(isOpChar a && isOpChar b)

/-- The buffer invariant: no two consecutive binary-operator characters. -/
def noTwoOps (l : List Char) : Bool :=
  chainB rop l

/-! ## Rounding lemmas -/

theorem round10_eq_of {x : ℝ} {n : ℤ} (h1 : (n : ℝ) ≤ x * 10 ^ 10 + 1 / 2)
    (h2 : x * 10 ^ 10 + 1 / 2 < n + 1) : round10 x = (n : ℝ) / 10 ^ 10 := by
  rw [round10]
  have hfl : (⌊x * 10 ^ 10 + 1 / 2⌋ : ℤ) = n := Int.floor_eq_iff.mpr ⟨h1, h2⟩
  rw [hfl]

theorem round10_half : round10 (1 / 2 : ℝ) = 1 / 2 := by
  have h := @round10_eq_of (1 / 2) 5000000000 (by norm_num) (by norm_num)
  rw [h]; norm_num

theorem round10_intCast (n : ℤ) : round10 ((n : ℝ)) = (n : ℝ) := by
  have h1 : ((n * 10 ^ 10 : ℤ) : ℝ) ≤ (n : ℝ) * 10 ^ 10 + 1 / 2 := by push_cast; linarith
  have h2 : (n : ℝ) * 10 ^ 10 + 1 / 2 < (n * 10 ^ 10 : ℤ) + 1 := by push_cast; linarith
  rw [round10_eq_of h1 h2]
  push_cast
  rw [mul_div_assoc]
  norm_num

/-! ## Concrete evaluations -/

theorem eval_zero (mode : AngleMode) (ans : ℝ) :
    evaluateExpression ("0") mode ans = EvalOutcome.value 0 := by
  have hp : preprocess ("0") = some (some (Expr.lit 0)) := by decide
  rw [evaluateExpression, hp]
  dsimp only
  have he : evalAST mode ans (Expr.lit 0) = JSVal.num 0 := by
    show JSVal.num ((0 : ℚ) : ℝ) = JSVal.num 0
    norm_num
  rw [he]
  dsimp only
  have h0 : round10 (0 : ℝ) = 0 := by simpa using round10_intCast 0
  rw [h0]

/-- C5: sanitization rewrites a maximal numeric literal followed by `%` into
the parenthesized division by 100 — `"50%"` becomes `"(50/100)"` — applied
once left-to-right and non-overlapping (witnessed by `"1%2%"`), and
evaluating `"50%"` in either angle mode with `Ans = 0` yields `0.5`. -/
theorem C5_percent_rewrite :
    sanitize ("50%") = "(50/100)" ∧
    sanitize ("1%2%") = "(1/100)(2/100)" ∧
    ∀ mode : AngleMode, evaluateExpression ("50%") mode 0 = EvalOutcome.value (1 / 2) := by
  refine ⟨by decide, by decide, fun mode => ?_⟩
  have hp : preprocess ("50%") = some (some (Expr.div (Expr.lit 50) (Expr.lit 100))) := by
    decide
  rw [evaluateExpression, hp]
  dsimp only
  have he : evalAST mode 0 (Expr.div (Expr.lit 50) (Expr.lit 100)) = JSVal.num (1 / 2) := by
    show jsDiv (JSVal.num ((50 : ℚ) : ℝ)) (JSVal.num ((100 : ℚ) : ℝ)) = JSVal.num (1 / 2)
    rw [jsDiv]
    rw [if_neg (by norm_num)]
    norm_num
  rw [he]
  dsimp only
  rw [round10_half]

/-- C6: a computed value that is not a finite number produces the same single
error outcome as a parse/compile failure — the two causes reach the caller
as the one constructor `EvalOutcome.error` — and in particular `"1/0"`
(which divides by zero, giving `Infinity`) evaluates to the error outcome
in every angle mode and for every `Ans`. -/
theorem C6_nonfinite_error :
    (∀ (raw : String) (mode : AngleMode) (ans : ℝ) (e : Expr),
        preprocess raw = some (some e) →
        (∀ r : ℝ, evalAST mode ans e ≠ JSVal.num r) →
        evaluateExpression raw mode ans = EvalOutcome.error) ∧
    (∀ (raw : String) (mode : AngleMode) (ans : ℝ),
        preprocess raw = some none →
        evaluateExpression raw mode ans = EvalOutcome.error) ∧
    ∀ (mode : AngleMode) (ans : ℝ),
      evaluateExpression ("1/0") mode ans = EvalOutcome.error := by
  refine ⟨?_, ?_, ?_⟩
  · intro raw mode ans e hpre hnn
    rw [evaluateExpression, hpre]
    dsimp only
    cases hv : evalAST mode ans e with
    | num r => exact absurd hv (hnn r)
    | posInf => rfl
    | negInf => rfl
    | nan => rfl
    | nonNum => rfl
  · intro raw mode ans hpre
    rw [evaluateExpression, hpre]
  · intro mode ans
    have hp : preprocess ("1/0") = some (some (Expr.div (Expr.lit 1) (Expr.lit 0))) := by
      decide
    rw [evaluateExpression, hp]
    dsimp only
    have he : evalAST mode ans (Expr.div (Expr.lit 1) (Expr.lit 0)) = JSVal.posInf := by
      show jsDiv (JSVal.num ((1 : ℚ) : ℝ)) (JSVal.num ((0 : ℚ) : ℝ)) = JSVal.posInf
      rw [jsDiv]
      rw [if_pos (by norm_num), if_pos (by norm_num)]
    rw [he]

/-- C8: in DEG mode each of the `sin`, `cos`, `tan` bindings converts its
argument by `radians = degrees * π / 180` before the underlying
trigonometric function, and with the 10-decimal rounding of the result,
`evaluate("sin(30)", DEG, Ans = 0)` returns `0.5` exactly. -/
theorem C8_degree_trig :
    (∀ x : ℝ, sinImpl AngleMode.deg (JSVal.num x) = JSVal.num (Real.sin (x * Real.pi / 180))) ∧
    (∀ x : ℝ, cosImpl AngleMode.deg (JSVal.num x) = JSVal.num (Real.cos (x * Real.pi / 180))) ∧
    (∀ x : ℝ, tanImpl AngleMode.deg (JSVal.num x) = JSVal.num (Real.tan (x * Real.pi / 180))) ∧
    evaluateExpression ("sin(30)") AngleMode.deg 0 = EvalOutcome.value (1 / 2) := by
  refine ⟨fun x => by simp [sinImpl, degToRad], fun x => by simp [cosImpl, degToRad],
    fun x => by simp [tanImpl, degToRad], ?_⟩
  have hp : preprocess ("sin(30)") = some (some (Expr.call1 ("sin") (Expr.lit 30))) := by
    decide
  rw [evaluateExpression, hp]
  dsimp only
  have he : evalAST AngleMode.deg 0 (Expr.call1 ("sin") (Expr.lit 30)) =
      JSVal.num (1 / 2) := by
    show sinImpl AngleMode.deg (JSVal.num ((30 : ℚ) : ℝ)) = JSVal.num (1 / 2)
    rw [sinImpl]
    rw [if_pos rfl]
    have harg : degToRad ((30 : ℚ) : ℝ) = Real.pi / 6 := by
      rw [degToRad]; push_cast; ring
    rw [harg, Real.sin_pi_div_six]
  rw [he]
  dsimp only
  rw [round10_half]

/-- C10: a `%` that is not immediately preceded by a numeric literal is left
alone by the percent rewrite (no digit-before-`%` pair means the pass is
the identity), and the surviving `%` evaluates as the JavaScript remainder
operator: `"(3+2)%3"` evaluates to `2` in every mode. -/
theorem C10_modulo_percent :
    (∀ l : List Char, noDP l = true → percentRewrite l = l) ∧
    ∀ (mode : AngleMode) (ans : ℝ),
      evaluateExpression ("(3+2)%3") mode ans = EvalOutcome.value 2 := by
  refine ⟨fun l h => percentAuxF_eq_self _ h, fun mode ans => ?_⟩
  have hp : preprocess ("(3+2)%3") =
      some (some (Expr.mod (Expr.add (Expr.lit 3) (Expr.lit 2)) (Expr.lit 3))) := by
    decide
  rw [evaluateExpression, hp]
  dsimp only
  have he : evalAST mode ans (Expr.mod (Expr.add (Expr.lit 3) (Expr.lit 2)) (Expr.lit 3)) =
      JSVal.num 2 := by
    show jsMod (jsAdd (JSVal.num ((3 : ℚ) : ℝ)) (JSVal.num ((2 : ℚ) : ℝ)))
      (JSVal.num ((3 : ℚ) : ℝ)) = JSVal.num 2
    rw [jsAdd]
    have hsum : ((3 : ℚ) : ℝ) + ((2 : ℚ) : ℝ) = 5 := by norm_num
    rw [hsum, jsMod, if_neg (by norm_num)]
    have htr : jsTrunc ((5 : ℝ) / ((3 : ℚ) : ℝ)) = 1 := by
      rw [jsTrunc, if_pos (by norm_num)]
      refine Int.floor_eq_iff.mpr ⟨by norm_num, by norm_num⟩
    rw [htr]
    norm_num
  rw [he]
  dsimp only
  have h2 : round10 (2 : ℝ) = 2 := by simpa using round10_intCast 2
  rw [h2]

/-- C1 (code bug): the function produced by `new Function` closes over the
global scope, so an identifier outside the nine bindings can resolve to a
host capability instead of failing: `"Number(5)"` survives sanitization,
resolves the JavaScript global `Number`, and evaluates to the value `5` in
every mode — where the claim demands the error outcome. -/
theorem C1_global_capability_leak :
    ∀ (mode : AngleMode) (ans : ℝ),
      evaluateExpression ("Number(5)") mode ans = EvalOutcome.value 5 := by
  intro mode ans
  have hp : preprocess ("Number(5)") =
      some (some (Expr.call1 ("Number") (Expr.lit 5))) := by decide
  rw [evaluateExpression, hp]
  dsimp only
  have he : evalAST mode ans (Expr.call1 ("Number") (Expr.lit 5)) = JSVal.num 5 := by
    show jsToNum (JSVal.num ((5 : ℚ) : ℝ)) = JSVal.num 5
    rw [jsToNum]
    norm_num
  rw [he]
  dsimp only
  have h5 : round10 (5 : ℝ) = 5 := by simpa using round10_intCast 5
  rw [h5]

/-- C6 witness: the general non-finite clause applied at the concrete input
`"1/0"` in DEG mode with `Ans = 0`. -/
theorem C6_nonfinite_error_witness :
    evaluateExpression ("1/0") AngleMode.deg 0 = EvalOutcome.error :=
  C6_nonfinite_error.2.2 AngleMode.deg 0

/-- C10 witness: the identity clause of the percent rewrite applied to the
concrete character list of `"(3+2)%3"`. -/
theorem C10_modulo_percent_witness :
    percentRewrite (("(3+2)%3").toList) = ("(3+2)%3").toList :=
  C10_modulo_percent.1 _ (by decide)

theorem eval_parse_fail (mode : AngleMode) (ans : ℝ) :
    evaluateExpression ("((") mode ans = EvalOutcome.error := by
  have hp : preprocess ("((") = some none := by decide
  rw [evaluateExpression, hp]

/-- C2: the commit (`equals`) branch is atomic — when evaluation yields the
error or the empty outcome the whole session state (buffer, `Ans`,
history) is returned unchanged, and the three fields are updated only
together, on a successful evaluation. -/
theorem C2_atomic_commit (fmt : ℝ → String) (s : CalcState) :
    (evaluateExpression (exprToEval s) s.angleMode (ansValue s) = EvalOutcome.error ∨
        evaluateExpression (exprToEval s) s.angleMode (ansValue s) = EvalOutcome.empty →
      equalsStep fmt s = s) ∧
    ∀ r : ℝ, evaluateExpression (exprToEval s) s.angleMode (ansValue s) = EvalOutcome.value r →
      equalsStep fmt s =
        { s with
          history := addToHistory s.history (exprToEval s) (JSVal.num r)
          lastResult := some r
          expression := fmt r } := by
  constructor
  · intro h
    rcases h with h | h <;> rw [equalsStep, h]
  · intro r h
    rw [equalsStep, h]

/-- A trivial formatter used by closed witnesses for the abstract
`String(number)` conversion. -/
def fmtZero : ℝ → String :=
  fun _ => "0"

/-- A state whose buffer `"(("` fails to parse, used by the C2 witness. -/
def errState : CalcState :=
  { expression := "((", lastResult := none, angleMode := AngleMode.deg, history := [] }

/-- C2 witness: committing the unparseable buffer `"(("` leaves the state
unchanged. -/
theorem C2_atomic_commit_witness : equalsStep fmtZero errState = errState :=
  (C2_atomic_commit fmtZero errState).1 (Or.inl (eval_parse_fail AngleMode.deg 0))

/-- C3: the history ledger is bounded by 20 entries and ordered newest-first:
a push keeps the bound, and pushing onto a full 20-entry ledger inserts at
the front, evicts exactly the oldest (last) entry, and leaves exactly 20
entries with the new entry at the head. -/
theorem C3_history_bound (hist : List HistEntry) (e : String) (r : ℝ) :
    (hist.length ≤ 20 → (addToHistory hist e (JSVal.num r)).length ≤ 20) ∧
    (hist.length = 20 → jsTrim e ≠ "" →
      addToHistory hist e (JSVal.num r) = (e, r) :: hist.dropLast ∧
      (addToHistory hist e (JSVal.num r)).length = 20 ∧
      (addToHistory hist e (JSVal.num r)).head? = some (e, r)) := by
  constructor
  · intro h20
    rw [addToHistory]
    by_cases ht : jsTrim e = ""
    · rw [if_pos ht]; exact h20
    · rw [if_neg ht]
      by_cases hlen : 20 < ((e, r) :: hist).length
      · rw [if_pos hlen, List.length_dropLast]
        simp only [List.length_cons]
        omega
      · rw [if_neg hlen]
        simp only [List.length_cons] at hlen ⊢
        omega
  · intro h20 ht
    have hlen : 20 < ((e, r) :: hist).length := by
      simp only [List.length_cons, h20]
      omega
    have hne : hist ≠ [] := by
      intro hh; rw [hh] at h20; simp at h20
    have hstep : addToHistory hist e (JSVal.num r) = (e, r) :: hist.dropLast := by
      rw [addToHistory, if_neg ht, if_pos hlen, List.dropLast_cons_of_ne_nil hne]
    refine ⟨hstep, ?_, ?_⟩
    · rw [hstep]
      simp only [List.length_cons, List.length_dropLast, h20]
    · rw [hstep]; rfl

/-- A full 20-entry ledger, used by the C3 witness. -/
def hist20 : List HistEntry :=
  List.replicate 20 (("1"), (1 : ℝ))

/-- C3 witness: pushing the 21st entry onto a full ledger of 20. -/
theorem C3_history_bound_witness :
    addToHistory hist20 ("7") (JSVal.num 7) = (("7"), (7 : ℝ)) :: hist20.dropLast ∧
    (addToHistory hist20 ("7") (JSVal.num 7)).length = 20 ∧
    (addToHistory hist20 ("7") (JSVal.num 7)).head? = some (("7"), (7 : ℝ)) :=
  (C3_history_bound hist20 ("7") 7).2 (by simp [hist20]) (by decide)

/-- C9: a commit with an empty buffer is not a no-op: the displayed text is
`"0"` whenever the buffer is empty, that text is evaluated in the buffer's
place, and the commit succeeds — `Ans` becomes `0`, the entry
`("0", 0)` is pushed at the front of the ledger, and the buffer becomes
`"0"`. -/
theorem C9_empty_buffer_commit (fmt : ℝ → String) (s : CalcState)
    (hempty : s.expression = "") (hfmt : fmt 0 = "0") :
    displayMainValue s = "0" ∧
    exprToEval s = "0" ∧
    equalsStep fmt s =
      { s with
        history := addToHistory s.history ("0") (JSVal.num 0)
        lastResult := some 0
        expression := "0" } ∧
    (addToHistory s.history ("0") (JSVal.num 0)).head? = some (("0"), (0 : ℝ)) := by
  have hd : displayMainValue s = "0" := by rw [displayMainValue, if_pos hempty]
  have hx : exprToEval s = "0" := by rw [exprToEval, if_pos hempty, hd]
  refine ⟨hd, hx, ?_, ?_⟩
  · rw [equalsStep, hx, eval_zero]
    dsimp only
    rw [hfmt]
  · rw [addToHistory, if_neg (by decide)]
    by_cases hlen : 20 < ((("0"), (0 : ℝ)) :: s.history).length
    · rw [if_pos hlen]
      have hne : s.history ≠ [] := by
        intro hh; rw [hh] at hlen; simp at hlen
      rw [List.dropLast_cons_of_ne_nil hne]
      rfl
    · rw [if_neg hlen]; rfl

/-- The empty initial-like state used by the C9 witness. -/
def emptyState : CalcState :=
  { expression := "", lastResult := none, angleMode := AngleMode.deg, history := [] }

/-- C9 witness: committing with the empty buffer in the empty state. -/
theorem C9_empty_buffer_commit_witness :
    displayMainValue emptyState = "0" ∧
    exprToEval emptyState = "0" ∧
    equalsStep fmtZero emptyState =
      { emptyState with
        history := addToHistory emptyState.history ("0") (JSVal.num 0)
        lastResult := some 0
        expression := "0" } ∧
    (addToHistory emptyState.history ("0") (JSVal.num 0)).head? =
      some (("0"), (0 : ℝ)) :=
  C9_empty_buffer_commit fmtZero emptyState rfl rfl

/-! ## The no-consecutive-operators buffer invariant (C4) -/

theorem rop_left {a b : Char} (ha : isOpChar a = false) : rop a b = true := by
  simp [rop, ha]

theorem rop_right {a b : Char} (hb : isOpChar b = false) : rop a b = true := by
  simp [rop, hb]

theorem toList_mk (l : List Char) : (⟨l⟩ : String).toList = l := rfl

theorem toList_append (s t : String) : (s ++ t).toList = s.toList ++ t.toList := by
  show (s ++ t).data = s.data ++ t.data
  exact String.data_append s t

/-- `String.prototype.includes` on a one-character needle is character
membership in the operator alphabet. -/
theorem strIncludes_ops_single (c : Char) :
    strIncludes opsStr (⟨[c]⟩ : String) = isOpChar c := by
  by_cases h1 : c = '+'
  · subst h1; decide
  by_cases h2 : c = '-'
  · subst h2; decide
  by_cases h3 : c = '*'
  · subst h3; decide
  by_cases h4 : c = '/'
  · subst h4; decide
  by_cases h5 : c = '^'
  · subst h5; decide
  have hop : isOpChar c = false := by simp [isOpChar, h1, h2, h3, h4, h5]
  rw [hop]
  show ((['+', '-', '*', '/', '^'] : List Char).tails.any fun t => [c].isPrefixOf t) = false
  simp [List.isPrefixOf, h1, h2, h3, h4, h5]

theorem noTwoOps_append_char {l : List Char} {c : Char} (h : noTwoOps l = true)
    (hc : ∀ a, l.getLast? = some a → rop a c = true) :
    noTwoOps (l ++ [c]) = true := by
  refine chainB_append h (chainB_single _ _) ?_
  intro a b ha hb
  have hb2 : c = b := by simpa using hb
  subst hb2
  exact hc a ha

theorem noTwoOps_dropLast {l : List Char} (h : noTwoOps l = true) :
    noTwoOps l.dropLast = true := by
  cases hl : l.getLast? with
  | none =>
    have hnil : l = [] := List.getLast?_eq_none_iff.mp hl
    subst hnil; exact h
  | some x =>
    have h1 : l.dropLast ++ [x] = l := List.dropLast_append_getLast? x (by simp [hl])
    exact @chainB_append_left _ l.dropLast [x] (by rw [h1]; exact h)

/-- In a buffer with no stacked operators, the character before a trailing
operator is not an operator. -/
theorem op_before_op {l : List Char} (h : noTwoOps l = true) {x a : Char}
    (hx : l.getLast? = some x) (hxo : isOpChar x = true)
    (ha : l.dropLast.getLast? = some a) : isOpChar a = false := by
  have h1 : l.dropLast ++ [x] = l := List.dropLast_append_getLast? x (by simp [hx])
  have h2 : l.dropLast.dropLast ++ [a] = l.dropLast :=
    List.dropLast_append_getLast? a (by simp [ha])
  have h3 : l.dropLast.dropLast ++ a :: x :: [] = l := by
    rw [← h1, ← h2]; simp
  have h4 : chainB rop (l.dropLast.dropLast ++ a :: x :: []) = true := by
    rw [h3]; exact h
  have h5 := chainB_pair h4
  rw [rop] at h5
  simp [hxo] at h5
  exact h5

/-- The append guard preserves the invariant for every single-character
token: an operator token either replaces a trailing operator (whose
predecessor cannot be an operator) or lands after a non-operator. -/
theorem append_char_preserve (expr : String) (c : Char)
    (h : noTwoOps expr.toList = true) :
    noTwoOps ((appendToExpression expr (⟨[c]⟩ : String)).toList) = true := by
  rw [appendToExpression]
  by_cases hcond : (strIncludes opsStr (⟨[c]⟩ : String) &&
      (decide (expr = "") || strIncludes opsStr (lastCharStr expr))) = true
  · rw [if_pos hcond]
    rw [toList_append, toList_mk, toList_mk]
    apply noTwoOps_append_char (noTwoOps_dropLast h)
    intro a ha
    cases hgl : expr.toList.getLast? with
    | none =>
      have hnil : expr.toList = [] := List.getLast?_eq_none_iff.mp hgl
      rw [hnil] at ha
      simp at ha
    | some x =>
      have hnem : expr ≠ "" := by
        intro he
        rw [he] at hgl
        simp at hgl
      have hlast : lastCharStr expr = (⟨[x]⟩ : String) := by
        rw [lastCharStr, hgl]
        rfl
      simp only [Bool.and_eq_true, Bool.or_eq_true] at hcond
      obtain ⟨hc1, hc2⟩ := hcond
      rcases hc2 with hc2 | hc2
      · exact absurd (of_decide_eq_true hc2) hnem
      · rw [hlast, strIncludes_ops_single] at hc2
        exact rop_left (op_before_op h hgl hc2 ha)
  · rw [if_neg hcond]
    rw [toList_append, toList_mk]
    apply noTwoOps_append_char h
    intro a ha
    by_cases hcOp : isOpChar c = true
    · have hc1 : strIncludes opsStr (⟨[c]⟩ : String) = true := by
        rw [strIncludes_ops_single]; exact hcOp
      have hor : (decide (expr = "") || strIncludes opsStr (lastCharStr expr)) = false := by
        cases hb : (decide (expr = "") || strIncludes opsStr (lastCharStr expr))
        · rfl
        · exact absurd (by rw [hc1, hb]; rfl) hcond
      obtain ⟨hd1, hd2⟩ := Bool.or_eq_false_iff.mp hor
      have hlast : lastCharStr expr = (⟨[a]⟩ : String) := by
        rw [lastCharStr, ha]
        rfl
      rw [hlast, strIncludes_ops_single] at hd2
      exact rop_left hd2
    · exact rop_right (by simpa using hcOp)

/-- Plain concatenation of a token whose characters satisfy the invariant and
whose first character is not an operator. -/
theorem noTwoOps_append_str (expr t : String) (h : noTwoOps expr.toList = true)
    (ht : chainB rop t.toList = true)
    (hh : t.toList.head?.all (fun b => !isOpChar b) = true) :
    noTwoOps ((expr ++ t).toList) = true := by
  rw [toList_append]
  refine chainB_append h ht ?_
  intro a b ha hb
  rw [hb] at hh
  simp [Option.all] at hh
  exact rop_right (by simpa using hh)

/-- `appendToExpression` with a non-operator multi-character token (such as
`"PI"`, `"Ans"`, `"%"`, `"0"`) takes the concatenation branch and
preserves the invariant. -/
theorem append_token_preserve (expr t : String) (h : noTwoOps expr.toList = true)
    (hg : strIncludes opsStr t = false) (ht : chainB rop t.toList = true)
    (hh : t.toList.head?.all (fun b => !isOpChar b) = true) :
    noTwoOps ((appendToExpression expr t).toList) = true := by
  rw [appendToExpression, if_neg (by rw [hg]; simp)]
  exact noTwoOps_append_str expr t h ht hh

/-- The `square` transformation `(expr)^2` preserves the invariant. -/
theorem square_preserve (expr : String) (h : noTwoOps expr.toList = true) :
    noTwoOps ((("(") ++ expr ++ (")^2")).toList) = true := by
  have hin : noTwoOps ((expr ++ (")^2")).toList) = true :=
    noTwoOps_append_str expr _ h (by decide) (by decide)
  rw [toList_append, toList_append]
  rw [List.append_assoc]
  show noTwoOps ('(' :: (expr.toList ++ (")^2").toList)) = true
  refine chainB_cons_of ?_ ?_
  · rw [← toList_append]; exact hin
  · intro b hb
    exact rop_left (by decide)

/-- Every session operation preserves the invariant, given that the
number-to-string conversion produces operator-free strings. -/
theorem step_preserves_noTwoOps (fmt : ℝ → String)
    (hfmt : ∀ x, noTwoOps ((fmt x).toList) = true)
    (op : CalcOp) (s : CalcState) (h : noTwoOps s.expression.toList = true) :
    noTwoOps ((step fmt op s).expression.toList) = true := by
  cases op with
  | press t =>
    simp only [step]
    exact append_char_preserve _ _ h
  | func n =>
    cases n with
    | sin => exact noTwoOps_append_str _ _ h (by decide) (by decide)
    | cos => exact noTwoOps_append_str _ _ h (by decide) (by decide)
    | tan => exact noTwoOps_append_str _ _ h (by decide) (by decide)
    | log => exact noTwoOps_append_str _ _ h (by decide) (by decide)
    | ln => exact noTwoOps_append_str _ _ h (by decide) (by decide)
    | sqrt => exact noTwoOps_append_str _ _ h (by decide) (by decide)
    | square =>
      show noTwoOps ((handleFunction FnName.square s).expression.toList) = true
      rw [handleFunction]
      by_cases he : s.expression = ""
      · rw [if_pos he]; exact h
      · rw [if_neg he]; exact square_preserve _ h
    | pi => exact append_token_preserve _ _ h (by decide) (by decide) (by decide)
    | e => exact append_token_preserve _ _ h (by decide) (by decide) (by decide)
    | ans =>
      show noTwoOps ((handleFunction FnName.ans s).expression.toList) = true
      rw [handleFunction]
      cases s.lastResult with
      | none => exact h
      | some r => exact append_token_preserve _ _ h (by decide) (by decide) (by decide)
  | clear => exact rfl
  | delete => exact noTwoOps_dropLast h
  | equals =>
    show noTwoOps ((equalsStep fmt s).expression.toList) = true
    rw [equalsStep]
    cases hv : evaluateExpression (exprToEval s) s.angleMode (ansValue s) with
    | empty => exact h
    | error => exact h
    | value r => exact hfmt r
  | percent => exact append_token_preserve _ _ h (by decide) (by decide) (by decide)
  | dot =>
    simp only [step]
    split
    · exact h
    · exact append_token_preserve _ _ h (by decide) (by decide) (by decide)
  | doubleZero =>
    simp only [step]
    split
    · exact append_token_preserve _ _ h (by decide) (by decide) (by decide)
    · exact append_token_preserve _ _ h (by decide) (by decide) (by decide)
  | historySelect i =>
    simp only [step]
    cases hgi : s.history.get? i with
    | none => exact h
    | some en => exact hfmt en.2
  | historyClear => exact h
  | toggleAngle => exact h

/-- C4: after any sequence of session operations from the initial state the
buffer never contains two consecutive binary-operator characters from
`+ - * / ^` (assuming the abstract `String(number)` conversion emits
operator-free text, as JavaScript number formatting does), and the append
guard replaces a trailing operator: from buffer `"3+"`, appending `"-"`
yields `"3-"`, not `"3+-"`. -/
theorem C4_no_consecutive_ops (fmt : ℝ → String)
    (hfmt : ∀ x, noTwoOps ((fmt x).toList) = true) (ops : List CalcOp) :
    noTwoOps ((runOps fmt ops).expression.toList) = true ∧
    appendToExpression ("3+") ("-") = "3-" := by
  refine ⟨?_, by decide⟩
  suffices hgen : ∀ (l : List CalcOp) (s : CalcState), noTwoOps s.expression.toList = true →
      noTwoOps ((l.foldl (fun s op => step fmt op s) s).expression.toList) = true by
    exact hgen ops initState rfl
  intro l
  induction l with
  | nil => intro s hs; exact hs
  | cons op l ih =>
    intro s hs
    exact ih _ (step_preserves_noTwoOps fmt hfmt op s hs)

/-- C4 witness: the invariant after pressing `-` from the initial state, with
the constant formatter. -/
theorem C4_no_consecutive_ops_witness :
    noTwoOps ((runOps fmtZero [CalcOp.press UIToken.minus]).expression.toList) = true ∧
    appendToExpression ("3+") ("-") = "3-" :=
  C4_no_consecutive_ops fmtZero (fun _ => rfl) [CalcOp.press UIToken.minus]

end Calc
